import Mathlib

/-!
Verification model of the node-logger repository.

The development shallowly embeds the logger facade (class NodeLogger), its
structured-log entry points (json, log), the three request-lifecycle
middlewares, the sink-selection logic of the constructor, the header
redaction serializer (two global regex replacements over the cookie string),
and the network stream write method.

JavaScript runtime values are modelled by the inductive type JsVal;
truthiness, property access (which throws on null/undefined), object spread
with last-write-wins keys, and property-key coercion are modelled
explicitly.  The two cookie regexes
  (sid=).+?(;|$)  and  (rm=).+?(;|$)   (global, replacement $1***$2)
are modelled by the scanner scanRep, which reproduces the left-to-right,
lazy-dot semantics of the JavaScript engine, including the facts that the
first value character is consumed unconditionally, that the dot does not
match line terminators, and that scanning resumes after each replacement.
-/

namespace NodeLogger

/-! ### JavaScript value model -/

/-- JavaScript runtime values, as far as the logger inspects them. -/
inductive JsVal : Type where
  | undefined
  | null
  | boolean (b : Bool)
  | num (n : Int)
  | str (s : String)
  | arr (elems : List JsVal)
  | obj (fields : List (String × JsVal))

/-- JavaScript truthiness. -/
def truthy : JsVal → Bool
  | .undefined => false
  | .null => false
  | .boolean b => b
  | .num n => n != 0
  | .str s => s != ""
  | .arr _ => true
  | .obj _ => true

/-- Property lookup in an object field list; later entries shadow earlier
ones, matching JavaScript object-literal semantics. -/
def lookupLast (fields : List (String × JsVal)) (k : String) : Option JsVal :=
  fields.foldl (fun acc p => if p.1 = k then some p.2 else acc) none

/-- Property access: accessing any property of null or undefined throws a
TypeError (modelled as the error case); objects consult their fields
(missing keys give undefined); all other primitives yield undefined for the
property names the logger reads. -/
def jsGet : JsVal → String → Except Unit JsVal
  | .undefined, _ => .error ()
  | .null, _ => .error ()
  | .obj fields, k => .ok ((lookupLast fields k).getD .undefined)
  | _, _ => .ok .undefined

/-- Total variant of property access: a throwing access is collapsed to
undefined.  Used only to state theorems about emitted records. -/
def jsGetD (v : JsVal) (k : String) : JsVal :=
  ((jsGet v k).toOption).getD .undefined

/-- Object spread: the enumerable own entries a spread expression
contributes to an object literal.  Objects contribute their fields,
arrays and strings contribute index-keyed entries, other primitives
contribute nothing. -/
def jsSpread : JsVal → List (String × JsVal)
  | .obj fields => fields
  | .arr elems => (elems.enum.map fun p => (toString p.1, p.2))
  | .str s => (s.toList.enum.map fun p => (toString p.1, JsVal.str (String.mk [p.2])))
  | _ => []

mutual

/-- Coercion of a value to a property key (JavaScript ToPropertyKey /
String conversion): undefined becomes the string it spells, arrays join
their converted elements with commas, objects stringify to the fixed
object tag. -/
def jsToKey : JsVal → String
  | .undefined => "undefined"
  | .null => "null"
  | .boolean b => if b then "true" else "false"
  | .num n => toString n
  | .str s => s
  | .obj _ => "[object Object]"
  | .arr elems => jsKeyList elems

/-- Comma join of array elements for string coercion. -/
def jsKeyList : List JsVal → String
  | [] => ""
  | [e] => jsKeyItem e
  | e :: rest => jsKeyItem e ++ "," ++ jsKeyList rest

/-- One array element in a string coercion: null and undefined render as
the empty string inside a join. -/
def jsKeyItem : JsVal → String
  | .undefined => ""
  | .null => ""
  | e => jsToKey e

end

/-- Array indexing: out-of-bounds access yields undefined. -/
def jsIdx (elems : List JsVal) (i : Nat) : JsVal :=
  (elems.get? i).getD .undefined

/-- Array.isArray. -/
def jsIsArray : JsVal → Bool
  | .arr _ => true
  | _ => false

/-- Whether a value is literally null (the strict comparison
res.result !== null in the success middleware). -/
def jsIsNull : JsVal → Bool
  | .null => true
  | _ => false

/-! ### Settings and constructor stream selection (NodeLogger._init) -/

/-- The configuration surface consumed by the constructor.  Optional string
fields are None when absent; isJSON, isMapper and isTrim record the
truthiness of the corresponding options; streams is the caller-supplied
stream-binding list (entries are opaque to _init and modelled by
identifiers), None when the option is absent. -/
structure Settings where
  level : Option String
  isJSON : Bool
  isMapper : Bool
  isTrim : Bool
  streams : Option (List Nat)
  serializers : Option (List String)
  name : Option String
  type : Option String

/-- A stream binding pushed by _init: the isMapper/isTrim convenience
binding (raw type, resolved level, TrimStream when isTrim else
MapperStream), a caller-supplied binding forwarded unchanged, or the
default BaseStream binding. -/
inductive StreamItem : Type where
  | conv (isTrim : Bool) (level : String)
  | custom (n : Nat)
  | base (level : String)
  deriving DecidableEq

/-- The options object _init returns to the underlying engine. -/
structure LoggerOptions where
  name : String
  type : String
  streams : List StreamItem
  serializers : List String
  deriving DecidableEq

/-- JavaScript defaulting via logical or: the empty string is falsy and
falls back to the default, as does an absent value. -/
def strOrDefault (o : Option String) (d : String) : String :=
  match o with
  | some s => if s = "" then d else s
  | none => d

/-- Names of the built-in serializers (header, req, err). -/
def builtinSerializers : List String :=
  ["header", "req", "err"]

/-- NodeLogger._init: resolves level/name/type defaults, merges
caller-supplied serializer names over the built-ins, and selects the
stream list: the isMapper branch is checked first, then non-empty explicit
streams, then the default BaseStream binding. -/
def init (s : Settings) : LoggerOptions :=
  let level := strOrDefault s.level "INFO"
  let streamList :=
    if s.isMapper then
      [StreamItem.conv s.isTrim level]
    else
      match s.streams with
      | some l => if 0 < l.length then l.map StreamItem.custom else [StreamItem.base level]
      | none => [StreamItem.base level]
  { name := strOrDefault s.name "example"
    type := strOrDefault s.type "example"
    streams := streamList
    serializers :=
      match s.serializers with
      | some names => builtinSerializers ++ names.filter (fun n => ¬ n ∈ builtinSerializers)
      | none => builtinSerializers }

/-! ### json and log -/

/-- One call to the underlying engine (this.info(fields, msg)): the record
fields contributed by the first argument and the optional message
argument. -/
structure Emission where
  fields : List (String × JsVal)
  msg : Option JsVal

/-- NodeLogger.json: drops the call when isJSON is falsy; otherwise a plain
string payload becomes the pair of a level-70 object and the string, any
other payload is spread into a fresh object whose level field is forced to
70 last (so it wins); the rest arguments are appended and the first two
positions are handed to info. -/
def json (st : Settings) (args : JsVal) (rest : List JsVal) : List Emission :=
  if ¬ st.isJSON then []
  else
    let newArgs : List JsVal :=
      match args with
      | .str s => [JsVal.obj [("level", JsVal.num 70)], JsVal.str s]
      | a => [JsVal.obj (jsSpread a ++ [("level", JsVal.num 70)])]
    let concatArgs := newArgs ++ rest
    [{ fields := jsSpread (jsIdx concatArgs 0), msg := concatArgs.get? 1 }]

/-- NodeLogger.log: spreads the rest array into an object, then (because a
rest parameter is always an array) unconditionally rebuilds the object from
the first two rest positions, and forwards to json under the stringData
key with the first argument as the message. -/
def log (st : Settings) (arg : JsVal) (rest : List JsVal) : List Emission :=
  let args0 := JsVal.obj (jsSpread (JsVal.arr rest))
  let args :=
    if jsIsArray (JsVal.arr rest) then
      JsVal.obj [(jsToKey (jsIdx rest 0), jsIdx rest 1)]
    else args0
  json st (JsVal.obj [("stringData", args)]) [arg]

/-! ### Request-lifecycle middlewares -/

/-- The request-scoped state the outcome middlewares consult: req.requestId
(a string when set) and req.timeStart (a process.hrtime tuple, represented
by its presence; tuples are always truthy in JavaScript). -/
structure ReqCtx where
  requestId : Option String
  timeStart : Option Nat

/-- Truthiness of an optional string (absent and empty are falsy). -/
def optTruthy : Option String → Bool
  | none => false
  | some s => s != ""

/-- The argument passed to the continuation: next() or next(err). -/
inductive NextArg : Type where
  | noArg
  | withErr (name : String) (message : JsVal) (statusCode : Option Int)

/-- What a middleware invocation did: the records it emitted and how it
called the continuation. -/
structure HookResult where
  emits : List Emission
  next : NextArg

/-- The error object handed to the exception middleware. -/
structure JsError where
  name : String
  message : JsVal
  statusCode : Option Int

/-- middlewareSuccessfulResponse: returns next() early when requestId or
timeStart is missing; skips when res.result is falsy but not null (the
null case falls through and the subsequent res.result.stream access
throws); skips when the stream property is truthy; otherwise emits the
outcome record via json and calls next().  The error case models the
thrown TypeError. -/
def middlewareSuccessfulResponse (st : Settings) (elapsed : Nat) (req : ReqCtx)
    (result : JsVal) : Except Unit HookResult :=
  if ¬ optTruthy req.requestId ∨ req.timeStart = none then
    .ok { emits := [], next := .noArg }
  else if ¬ truthy result ∧ ¬ jsIsNull result then
    .ok { emits := [], next := .noArg }
  else
    match jsGet result "stream" with
    | .error u => .error u
    | .ok streamField =>
      if truthy streamField then
        .ok { emits := [], next := .noArg }
      else
        .ok
        { emits :=
            json st
              (JsVal.obj
                [("secureJsonData",
                  JsVal.obj
                    [("code", JsVal.num 200),
                     ("result", result),
                     ("meta",
                      JsVal.obj
                        [("requestId", JsVal.str (req.requestId.getD "")),
                         ("time", JsVal.num elapsed)])])])
              [JsVal.str "SUCCESSFUL_RESPONSE"]
          next := .noArg }

/-- middlewareExceptionResponse: when requestId or timeStart is missing it
returns next() without the error; otherwise it reads err.message.msg
(which throws when err.message is null or undefined), falls back to
err.message when that is falsy, derives the code from err.statusCode
(falsy, including 0, becomes 400), emits the exception record via json,
and calls next(err). -/
def middlewareExceptionResponse (st : Settings) (elapsed : Nat) (err : JsError)
    (req : ReqCtx) : Except Unit HookResult :=
  if ¬ optTruthy req.requestId ∨ req.timeStart = none then
    .ok { emits := [], next := .noArg }
  else
    match jsGet err.message "msg" with
    | .error u => .error u
    | .ok m =>
      let errorMessage := if truthy m then m else err.message
      let errorCode : Int :=
        match err.statusCode with
        | some c => if c = 0 then 400 else c
        | none => 400
      .ok
      { emits :=
          json st
            (JsVal.obj
              [("secureJsonData",
                JsVal.obj
                  [("error",
                    JsVal.obj
                      [("code", JsVal.num errorCode),
                       ("name", JsVal.str err.name),
                       ("message", errorMessage)]),
                   ("meta",
                    JsVal.obj
                      [("requestId", JsVal.str (req.requestId.getD "")),
                       ("time", JsVal.num elapsed)])])])
            [JsVal.str "EXCEPTION_RESPONSE"]
        next := .withErr err.name err.message err.statusCode }

/-- Incoming request as the entry middleware sees it: only its headers
matter here (node lower-cases header names). -/
structure ReqIn where
  headers : List (String × String)

/-- Response-header lookup/storage. -/
def headerLookup (hs : List (String × String)) (k : String) : Option String :=
  (hs.find? (fun p => p.1 = k)).map (fun p => p.2)

/-- res.setHeader: replaces an existing header of that name, else appends. -/
def setHeader (hs : List (String × String)) (k v : String) : List (String × String) :=
  if (hs.find? (fun p => p.1 = k)).isSome then
    hs.map (fun p => if p.1 = k then (k, v) else p)
  else hs ++ [(k, v)]

/-- The request object as a JavaScript value (the json payload of the
incoming-request record). -/
def reqToJs (r : ReqIn) : JsVal :=
  JsVal.obj [("headers", JsVal.obj (r.headers.map fun p => (p.1, JsVal.str p.2)))]

/-- Result of the entry middleware: the requestId bound into the child
logger meta (the __meta binding carried by the emitted record), the
requestId stored on the request, the response headers after the hook, and
the emitted records. -/
structure StartOut where
  metaRequestId : String
  reqRequestId : String
  resHeaders : List (String × String)
  emits : List Emission

/-- middleware (the request-entry hook): reads the x-request-id header;
when it is falsy (absent or empty) a fresh uuid is generated and set as
the x-request-id response header; the chosen id is bound into the child
logger meta and onto the request, and the incoming-request record is
emitted via json.  The generated uuid is passed in as a parameter. -/
def middleware (st : Settings) (fresh : String) (req : ReqIn)
    (res0 : List (String × String)) : StartOut :=
  let h := headerLookup req.headers "x-request-id"
  let gen := ¬ optTruthy h
  let requestId := if gen then fresh else h.getD ""
  let resH := if gen then setHeader res0 "x-request-id" fresh else res0
  { metaRequestId := requestId
    reqRequestId := requestId
    resHeaders := resH
    emits := json st (JsVal.obj [("req", reqToJs req)]) [JsVal.str "INCOMING_REQUEST"] }

/-! ### GelfStream.write -/

/-- GelfStream.write: emits exactly one gelf.log event whose payload is the
JSON serialization of the mapped record followed by a newline.  The
inherited record transform and the JSON serializer are parameters. -/
def gelfWrite {α β : Type} (map : α → β) (stringify : β → String) (record : α) :
    List (String × String) :=
  [("gelf.log", stringify (map record) ++ "\n")]

/-! ### Header redaction (the header serializer)

The serializer applies, to the cookie string,
  .replace(/(sid=).+?(;|\x24)/g, chr(36)1***chr(36)2)
and then the same with rm=.  scanRep k0 kt reproduces the JavaScript
global replace of /(K).+?(;|end)/ with K***terminator for the key
K = k0 :: kt: scan left to right; at a key occurrence the lazy .+? first
consumes one arbitrary non-line-terminator character, then extends over
non-semicolon characters until a semicolon (kept) or the end of input
(nothing appended); on failure scanning resumes one character later. -/

/-- Line terminators, which the regex dot does not match. -/
def lineTerm (c : Char) : Bool :=
  c = '\n' ∨ c = '\r' ∨ c = ' ' ∨ c = ' '

/-- The lazy tail of the value match after its first character: stop
successfully at the first semicolon (true: terminator kept) or at the end
of input (false: nothing appended); fail on a line terminator. -/
def goVal : List Char → Option (Bool × List Char)
  | [] => some (false, [])
  | c :: rest =>
    if c = ';' then some (true, rest)
    else if lineTerm c then none
    else goVal rest

/-- The value match after the key: .+? must consume at least one
character, unconditionally (even a semicolon), then continues lazily. -/
def matchVal : List Char → Option (Bool × List Char)
  | [] => none
  | c :: rest => if lineTerm c then none else goVal rest

/-- Global lazy replace of (k0::kt).+?(;|end) by key ++ *** ++ terminator,
resuming after each replacement. -/
def scanRep (k0 : Char) (kt : List Char) : List Char → List Char
  | [] => []
  | c :: rest =>
    if (k0 :: kt).isPrefixOf (c :: rest) then
      match hmv : matchVal ((c :: rest).drop (kt.length + 1)) with
      | some (semi, rest2) =>
          k0 :: kt ++ '*' :: '*' :: '*' ::
            (if semi then ';' :: scanRep k0 kt rest2 else scanRep k0 kt rest2)
      | none => c :: scanRep k0 kt rest
    else c :: scanRep k0 kt rest
  termination_by l => l.length
  decreasing_by
  all_goals simp
  all_goals
    have hsfx : ∀ l b r, goVal l = some (b, r) → r.length ≤ l.length := by
      intro l
      induction l with
      | nil => intro b r h; simp [goVal] at h; simp [h]
      | cons x xs ih =>
        intro b r h
        simp only [goVal] at h
        split at h
        · simp at h
          rcases h with ⟨h1, h2⟩
          subst h2
          simp only [List.length_cons]
          omega
        · split at h
          · simp at h
          · have := ih b r h
            simp only [List.length_cons]
            omega
  all_goals
    have hlt : rest2.length < ((c :: rest).drop (kt.length + 1)).length := by
      revert hmv
      generalize (c :: rest).drop (kt.length + 1) = l
      intro hmv
      cases l with
      | nil => simp [matchVal] at hmv
      | cons x xs =>
        simp only [matchVal] at hmv
        split at hmv
        · simp at hmv
        · have := hsfx xs semi rest2 hmv
          simp
          omega
  all_goals simp [List.length_drop] at hlt ⊢
  all_goals omega

/-- The sid= replacement (first replace call of the serializer). -/
def replaceSid (s : List Char) : List Char :=
  scanRep 's' ['i', 'd', '='] s

/-- The rm= replacement (second replace call of the serializer). -/
def replaceRm (s : List Char) : List Char :=
  scanRep 'r' ['m', '='] s

/-- The cookie redaction performed by the header serializer: the sid=
replacement followed by the rm= replacement. -/
def redactCookie (s : List Char) : List Char :=
  replaceRm (replaceSid s)

/-- Headers as the serializer sees them: the cookie and authorization
fields it touches, and all remaining fields, which pass through. -/
structure HeadersM where
  cookie : Option (List Char)
  authorization : Option (List Char)
  other : List (String × String)

/-- The header serializer: redacts a truthy cookie string, masks a truthy
authorization value with the fixed pattern, leaves everything else
unchanged. -/
def header (h : HeadersM) : HeadersM :=
  { cookie :=
      match h.cookie with
      | some s => if s ≠ [] then some (redactCookie s) else some s
      | none => none
    authorization :=
      match h.authorization with
      | some s => if s ≠ [] then some ['*', '*', '*'] else some s
      | none => none
    other := h.other }

/-- Normal form for one key after redaction: every occurrence of the key
in the string is followed by the mask and a semicolon (scanning continues
after it), by the mask at the end of input, or by nothing (key at the very
end).  Strings in this form are fixed points of scanRep for that key. -/
def keyNormal (k0 : Char) (kt : List Char) : List Char → Bool
  | [] => true
  | c :: rest =>
    if (k0 :: kt).isPrefixOf (c :: rest) then
      (let u := (c :: rest).drop (kt.length + 1)
       if u = [] then true
       else if u = ['*', '*', '*'] then true
       else if (['*', '*', '*', ';']).isPrefixOf u then keyNormal k0 kt (u.drop 4)
       else false)
    else keyNormal k0 kt rest
  termination_by l => l.length
  decreasing_by
  all_goals simp [List.length_drop]
  all_goals omega

/-- Whether the pattern p occurs as a contiguous substring of the
string. -/
def containsKey (p : List Char) : List Char → Bool
  | [] => p.isEmpty
  | c :: rest => p.isPrefixOf (c :: rest) || containsKey p rest

/-- No line terminator occurs in the string (true of any HTTP header
value, in particular of every cookie string). -/
def noLT (l : List Char) : Prop :=
  ∀ c ∈ l, lineTerm c = false

/-- A sample configuration with JSON-structured logging enabled. -/
def enabledSettings : Settings :=
  { level := none, isJSON := true, isMapper := false, isTrim := false,
    streams := none, serializers := none, name := none, type := none }

/-- A sample configuration with JSON-structured logging disabled. -/
def disabledSettings : Settings :=
  { level := none, isJSON := false, isMapper := false, isTrim := false,
    streams := none, serializers := none, name := none, type := none }

/-! ## Helper lemmas -/

theorem lookupLast_append_last (l : List (String × JsVal)) (k : String) (v : JsVal) :
    lookupLast (l ++ [(k, v)]) k = some v := by
  simp [lookupLast, List.foldl_append]

theorem json_fields_of_obj (st : Settings) (fields0 : List (String × JsVal))
    (rest : List JsVal) (e : Emission) (he : e ∈ json st (JsVal.obj fields0) rest) :
    e.fields = fields0 ++ [("level", JsVal.num 70)] := by
  by_cases hj : st.isJSON
  · simp [json, hj, jsIdx, jsSpread] at he
    simp [he]
  · simp [json, hj] at he

theorem headerLookup_cons_ne (p : String × String) (t : List (String × String))
    (k : String) (hp : p.1 ≠ k) :
    headerLookup (p :: t) k = headerLookup t k := by
  unfold headerLookup
  rw [List.find?_cons_of_neg _ (by simp [hp])]

theorem headerLookup_append_new :
    ∀ (hs : List (String × String)) (k v : String),
      hs.find? (fun p => p.1 = k) = none →
      headerLookup (hs ++ [(k, v)]) k = some v := by
  intro hs k v h
  induction hs with
  | nil =>
    unfold headerLookup
    rw [List.nil_append, List.find?_cons_of_pos _ (by simp)]
    rfl
  | cons p t ih =>
    rw [List.find?_cons] at h
    split at h
    · exact absurd h (by simp)
    · rename_i hp
      have hp2 : p.1 ≠ k := by simpa using hp
      rw [List.cons_append, headerLookup_cons_ne p _ k hp2]
      exact ih h

theorem headerLookup_overwrite :
    ∀ (hs : List (String × String)) (k v : String),
      (hs.find? (fun p => p.1 = k)).isSome = true →
      headerLookup (hs.map (fun p => if p.1 = k then (k, v) else p)) k = some v := by
  intro hs k v h
  induction hs with
  | nil => simp at h
  | cons p t ih =>
    by_cases hp : p.1 = k
    · rw [List.map_cons, if_pos hp]
      unfold headerLookup
      rw [List.find?_cons_of_pos _ (by simp)]
      rfl
    · rw [List.find?_cons] at h
      split at h
      · rename_i hq
        exact absurd (by simpa using hq) hp
      · rw [List.map_cons, if_neg hp, headerLookup_cons_ne p _ k hp]
        exact ih h

theorem headerLookup_setHeader (hs : List (String × String)) (k v : String) :
    headerLookup (setHeader hs k v) k = some v := by
  by_cases h : (hs.find? (fun p => p.1 = k)).isSome
  · rw [setHeader, if_pos h]
    exact headerLookup_overwrite hs k v h
  · rw [setHeader, if_neg h]
    exact headerLookup_append_new hs k v (Option.not_isSome_iff_eq_none.mp h)

/-! ## Claims -/

/-- C5: for every payload (string or structured) and every rest-argument
list, a json call with isJSON configured false performs zero sink writes
and returns normally. -/
theorem C5_json_disabled_noop (st : Settings) (args : JsVal) (rest : List JsVal)
    (h : st.isJSON = false) : json st args rest = [] := by
  simp [json, h]

theorem C5_witness :
    json disabledSettings (JsVal.str "payload") [JsVal.num 1] = [] :=
  C5_json_disabled_noop _ _ _ rfl

/-- C6: every record emitted by json carries level 70 in its fields, for
plain-string and structured payloads alike, overriding any level supplied
in the payload (the forced level entry is appended last and later entries
win). -/
theorem C6_json_level_70 (st : Settings) (args : JsVal) (rest : List JsVal)
    (e : Emission) (he : e ∈ json st args rest) :
    lookupLast e.fields "level" = some (JsVal.num 70) := by
  by_cases hj : st.isJSON
  · cases args <;>
      simp only [json, hj, not_true, if_neg, not_false_iff, List.mem_singleton] at he <;>
      subst he <;>
      simp [jsIdx, jsSpread, lookupLast_append_last, lookupLast]
  · simp [json, hj] at he

theorem C6_witness :
    lookupLast
      (Emission.fields
        { fields := [("level", JsVal.num 5), ("level", JsVal.num 70)],
          msg := none })
      "level" = some (JsVal.num 70) :=
  C6_json_level_70 enabledSettings (JsVal.obj [("level", JsVal.num 5)]) []
    { fields := [("level", JsVal.num 5), ("level", JsVal.num 70)], msg := none }
    (by simp [json, enabledSettings, jsIdx, jsSpread])

/-- C9: the network stream write sends exactly one application-level
message per record: the JSON serialization of the transformed record,
terminated by a newline, emitted on the gelf.log channel. -/
theorem C9_gelf_single_message {α β : Type} (map : α → β) (stringify : β → String)
    (record : α) :
    gelfWrite map stringify record = [("gelf.log", stringify (map record) ++ "\n")] ∧
    (gelfWrite map stringify record).length = 1 :=
  ⟨rfl, rfl⟩

/-- C10: in log the rest parameter is always an array, so the array branch
is always taken and the initial object-spread assignment is dead: every
call is equivalent to a json call keyed by the first two rest positions,
and a call with no rest arguments produces the key undefined. -/
theorem C10_log_json_equiv :
    (∀ (st : Settings) (arg : JsVal) (rest : List JsVal),
        log st arg rest =
          json st
            (JsVal.obj [("stringData",
              JsVal.obj [(jsToKey (jsIdx rest 0), jsIdx rest 1)])])
            [arg])
  ∧ (∀ (st : Settings) (arg : JsVal),
        log st arg [] =
          json st (JsVal.obj [("stringData", JsVal.obj [("undefined", JsVal.undefined)])])
            [arg]) := by
  constructor
  · intro st arg rest
    simp [log, jsIsArray]
  · intro st arg
    simp [log, jsIsArray, jsIdx, jsToKey]

/-- C1 counterexample: with both isMapper configured and a non-empty
explicit streams list, construction activates the isMapper convenience
binding, not the explicit streams bindings, refuting the claimed
precedence of explicit streams. -/
theorem C1_counterexample :
    (init { level := none, isJSON := true, isMapper := true, isTrim := false,
            streams := some [7], serializers := none, name := none, type := none }).streams
        = [StreamItem.conv false "INFO"] ∧
    (init { level := none, isJSON := true, isMapper := true, isTrim := false,
            streams := some [7], serializers := none, name := none, type := none }).streams
        ≠ [StreamItem.custom 7] := by
  decide

/-- C1 (amended): sink selection precedence as implemented: a truthy
isMapper always activates the convenience binding (TrimStream when isTrim
else MapperStream, at the resolved level), taking precedence over explicit
streams; explicit non-empty streams are activated only when isMapper is
falsy; otherwise the default binding is used. -/
theorem C1_stream_precedence_amended :
    (∀ s : Settings, s.isMapper = true →
        (init s).streams = [StreamItem.conv s.isTrim (strOrDefault s.level "INFO")])
  ∧ (∀ s : Settings, s.isMapper = false → ∀ l, s.streams = some l → l ≠ [] →
        (init s).streams = l.map StreamItem.custom)
  ∧ (∀ s : Settings, s.isMapper = false → (s.streams = none ∨ s.streams = some []) →
        (init s).streams = [StreamItem.base (strOrDefault s.level "INFO")]) := by
  refine ⟨?_, ?_, ?_⟩
  · intro s h
    simp [init, h]
  · intro s h l hl hne
    simp [init, h, hl, List.length_pos.mpr hne]
  · intro s h hd
    rcases hd with hd | hd <;> simp [init, h, hd]

theorem C1_witness :
    (init { level := some "DEBUG", isJSON := false, isMapper := true, isTrim := true,
            streams := some [1, 2], serializers := none, name := none, type := none }).streams
      = [StreamItem.conv true "DEBUG"] :=
  C1_stream_precedence_amended.1 _ rfl

/-- C2: evidence for the code bug.  When the request carries no
requestId / start time, middlewareExceptionResponse returns next()
without the error, so the error is not passed to the next error handler
(the claim and the spec require next(err) unconditionally); with the
context present it does pass the error on. -/
theorem C2_missing_context_swallows_error :
    middlewareExceptionResponse enabledSettings 5
        { name := "NotFound", message := JsVal.str "missing", statusCode := some 404 }
        { requestId := none, timeStart := none }
      = .ok { emits := [], next := .noArg } ∧
    NextArg.noArg ≠ NextArg.withErr "NotFound" (JsVal.str "missing") (some 404) ∧
    (middlewareExceptionResponse enabledSettings 5
        { name := "NotFound", message := JsVal.str "missing", statusCode := some 404 }
        { requestId := some "r1", timeStart := some 1 }).toOption.map HookResult.next
      = some (NextArg.withErr "NotFound" (JsVal.str "missing") (some 404)) := by
  refine ⟨?_, ?_, ?_⟩
  · simp [middlewareExceptionResponse, optTruthy]
  · simp
  · simp [middlewareExceptionResponse, optTruthy, jsGet, truthy, json, enabledSettings,
      Except.toOption]

/-- C4: when the request carries a requestId and a start time and the
response result is null, the success middleware is neither a clean no-op
nor an emission: the null-result guard admits null and the subsequent
stream-property access dereferences null, so the hook throws. -/
theorem C4_null_result_throws (st : Settings) (elapsed : Nat) (req : ReqCtx)
    (h1 : optTruthy req.requestId = true) (h2 : req.timeStart ≠ none) :
    middlewareSuccessfulResponse st elapsed req JsVal.null = .error () := by
  rw [middlewareSuccessfulResponse.eq_def]
  rw [if_neg (by simp [h1, h2]), if_neg (by simp [truthy, jsIsNull])]
  rfl

theorem C4_witness :
    middlewareSuccessfulResponse enabledSettings 5
        { requestId := some "r1", timeStart := some 1 } JsVal.null
      = .error () :=
  C4_null_result_throws _ _ _ (by decide) (by simp)

/-- C7: the success middleware never emits a record whose result has a
truthy stream property; with request context present and a truthy
result.stream it performs no sink write and passes through; and it emits
nothing when timeStart is unset. -/
theorem C7_success_stream_guard :
    (∀ (st : Settings) (elapsed : Nat) (req : ReqCtx) (result : JsVal) (o : HookResult),
        middlewareSuccessfulResponse st elapsed req result = .ok o →
        ∀ e ∈ o.emits,
          truthy (jsGetD (jsGetD (jsGetD (JsVal.obj e.fields) "secureJsonData")
              "result") "stream") = false)
  ∧ (∀ (st : Settings) (elapsed : Nat) (req : ReqCtx) (result : JsVal),
        req.timeStart = none →
        middlewareSuccessfulResponse st elapsed req result
          = .ok { emits := [], next := .noArg })
  ∧ (∀ (st : Settings) (elapsed : Nat) (req : ReqCtx) (result : JsVal),
        optTruthy req.requestId = true → req.timeStart ≠ none →
        truthy (jsGetD result "stream") = true →
        middlewareSuccessfulResponse st elapsed req result
          = .ok { emits := [], next := .noArg }) := by
  refine ⟨?_, ?_, ?_⟩
  · intro st elapsed req result o ho e he
    rw [middlewareSuccessfulResponse.eq_def] at ho
    split at ho
    · cases ho
      simp at he
    · split at ho
      · cases ho
        simp at he
      · split at ho
        · cases ho
        · rename_i streamField hjs
          split at ho
          · cases ho
            simp at he
          · rename_i hstream
            cases ho
            have hfl := json_fields_of_obj _ _ _ _ he
            rw [hfl]
            have h1 : jsGetD
                (JsVal.obj
                  ([("secureJsonData", JsVal.obj
                      [("code", JsVal.num 200), ("result", result),
                       ("meta", JsVal.obj
                          [("requestId", JsVal.str (req.requestId.getD "")),
                           ("time", JsVal.num elapsed)])])]
                    ++ [("level", JsVal.num 70)])) "secureJsonData"
                = JsVal.obj
                    [("code", JsVal.num 200), ("result", result),
                     ("meta", JsVal.obj
                        [("requestId", JsVal.str (req.requestId.getD "")),
                         ("time", JsVal.num elapsed)])] := by
              simp [jsGetD, jsGet, lookupLast, Except.toOption]
            rw [h1]
            have h2 : jsGetD
                (JsVal.obj
                  [("code", JsVal.num 200), ("result", result),
                   ("meta", JsVal.obj
                      [("requestId", JsVal.str (req.requestId.getD "")),
                       ("time", JsVal.num elapsed)])]) "result" = result := by
              simp [jsGetD, jsGet, lookupLast, Except.toOption]
            rw [h2]
            have h3 : jsGetD result "stream" = streamField := by
              simp [jsGetD, hjs, Except.toOption]
            rw [h3]
            simpa using hstream
  · intro st elapsed req result h
    simp [middlewareSuccessfulResponse, h]
  · intro st elapsed req result h1 h2 h3
    have hobj : ∃ fields, result = JsVal.obj fields := by
      cases result with
      | obj fields => exact ⟨fields, rfl⟩
      | undefined => simp [jsGetD, jsGet, Except.toOption, truthy] at h3
      | null => simp [jsGetD, jsGet, Except.toOption, truthy] at h3
      | boolean b => simp [jsGetD, jsGet, Except.toOption, truthy] at h3
      | num n => simp [jsGetD, jsGet, Except.toOption, truthy] at h3
      | str msg => simp [jsGetD, jsGet, Except.toOption, truthy] at h3
      | arr elems => simp [jsGetD, jsGet, Except.toOption, truthy] at h3
    rcases hobj with ⟨fields, rfl⟩
    have hget : jsGet (JsVal.obj fields) "stream"
        = .ok ((lookupLast fields "stream").getD .undefined) := rfl
    have hstream : truthy ((lookupLast fields "stream").getD .undefined) = true := by
      simpa [jsGetD, jsGet, Except.toOption] using h3
    rw [middlewareSuccessfulResponse.eq_def]
    rw [if_neg (by simp [h1, h2]), if_neg (by simp [truthy]), hget]
    simp [hstream]

theorem C7_witness :
    middlewareSuccessfulResponse enabledSettings 3
        { requestId := some "r1", timeStart := some 1 }
        (JsVal.obj [("stream", JsVal.boolean true)])
      = .ok { emits := [], next := .noArg } :=
  C7_success_stream_guard.2.2 _ _ _ _ (by decide) (by simp)
    (by simp [jsGetD, jsGet, lookupLast, truthy, Except.toOption])

/-- C3 counterexample: a request whose inbound x-request-id header is
abc-123 yields an incoming-request meta requestId of abc-123, but the
middleware does not set any outbound correlation header in that case
(the header is only set when the id is generated), refuting the claimed
round-trip onto the response. -/
theorem C3_counterexample :
    (middleware enabledSettings "gen"
        { headers := [("x-request-id", "abc-123")] } []).metaRequestId = "abc-123" ∧
    headerLookup
        (middleware enabledSettings "gen"
          { headers := [("x-request-id", "abc-123")] } []).resHeaders
        "x-request-id" = none ∧
    headerLookup
        (middleware enabledSettings "gen"
          { headers := [("x-request-id", "abc-123")] } []).resHeaders
        "x-request-id" ≠ some "abc-123" := by
  refine ⟨?_, ?_, ?_⟩ <;>
    simp [middleware, headerLookup, optTruthy]

/-- C3 (amended): with a truthy inbound x-request-id header the emitted
incoming-request meta requestId equals the header value and the response
headers are left untouched; when the header is absent or empty the
generated id is used for the meta and is set as the outbound
x-request-id header; and with isJSON enabled the incoming-request record
is emitted. -/
theorem C3_request_id_amended :
    (∀ (st : Settings) (fresh : String) (req : ReqIn)
        (res0 : List (String × String)) (v : String),
        headerLookup req.headers "x-request-id" = some v → v ≠ "" →
        (middleware st fresh req res0).metaRequestId = v ∧
        (middleware st fresh req res0).reqRequestId = v ∧
        (middleware st fresh req res0).resHeaders = res0)
  ∧ (∀ (st : Settings) (fresh : String) (req : ReqIn)
        (res0 : List (String × String)),
        optTruthy (headerLookup req.headers "x-request-id") = false →
        (middleware st fresh req res0).metaRequestId = fresh ∧
        headerLookup (middleware st fresh req res0).resHeaders "x-request-id"
          = some fresh)
  ∧ (∀ (st : Settings) (fresh : String) (req : ReqIn)
        (res0 : List (String × String)),
        st.isJSON = true →
        (middleware st fresh req res0).emits =
          [{ fields := [("req", reqToJs req), ("level", JsVal.num 70)],
             msg := some (JsVal.str "INCOMING_REQUEST") }]) := by
  refine ⟨?_, ?_, ?_⟩
  · intro st fresh req res0 v hv hne
    simp [middleware, hv, optTruthy, hne]
  · intro st fresh req res0 h
    constructor
    · simp [middleware, h]
    · simp [middleware, h, headerLookup_setHeader]
  · intro st fresh req res0 hj
    simp [middleware, json, hj, jsIdx, jsSpread]

theorem C3_witness :
    (middleware enabledSettings "g1"
        { headers := [("x-request-id", "abc-999")] } [("a", "b")]).metaRequestId
      = "abc-999" ∧
    (middleware enabledSettings "g1"
        { headers := [("x-request-id", "abc-999")] } [("a", "b")]).reqRequestId
      = "abc-999" ∧
    (middleware enabledSettings "g1"
        { headers := [("x-request-id", "abc-999")] } [("a", "b")]).resHeaders
      = [("a", "b")] :=
  C3_request_id_amended.1 _ _ _ _ _ (by simp [headerLookup]) (by decide)

/-! ## Redaction lemmas: the value matcher -/

theorem goVal_suffix : ∀ (l : List Char) (b : Bool) (r : List Char),
    goVal l = some (b, r) → r <:+ l := by
  intro l
  induction l with
  | nil =>
    intro b r h
    simp [goVal] at h
    simp [h]
  | cons c rest ih =>
    intro b r h
    simp only [goVal] at h
    split at h
    · simp at h
      exact h.2 ▸ List.suffix_cons c rest
    · split at h
      · simp at h
      · exact (ih b r h).trans (List.suffix_cons c rest)

theorem matchVal_suffix : ∀ (l : List Char) (b : Bool) (r : List Char),
    matchVal l = some (b, r) → r <:+ l := by
  intro l b r h
  cases l with
  | nil => simp [matchVal] at h
  | cons c rest =>
    simp only [matchVal] at h
    split at h
    · simp at h
    · exact (goVal_suffix rest b r h).trans (List.suffix_cons c rest)

theorem goVal_semi_end : ∀ (l r : List Char), goVal l = some (false, r) → r = [] := by
  intro l
  induction l with
  | nil =>
    intro r h
    simp [goVal] at h
    simp [h]
  | cons c rest ih =>
    intro r h
    simp only [goVal] at h
    split at h
    · simp at h
    · split at h
      · simp at h
      · exact ih r h

theorem matchVal_semi_end : ∀ (l r : List Char), matchVal l = some (false, r) → r = [] := by
  intro l r h
  cases l with
  | nil => simp [matchVal] at h
  | cons c rest =>
    simp only [matchVal] at h
    split at h
    · simp at h
    · exact goVal_semi_end rest r h

theorem goVal_ne_none : ∀ (l : List Char), noLT l → goVal l ≠ none := by
  intro l
  induction l with
  | nil =>
    intro _ h
    simp [goVal] at h
  | cons c rest ih =>
    intro hlt h
    simp only [goVal] at h
    split at h
    · simp at h
    · split at h
      · rename_i hterm
        exact absurd (hlt c (by simp)) (by simp [hterm])
      · exact ih (fun x hx => hlt x (by simp [hx])) h

theorem matchVal_none_nil : ∀ (l : List Char), noLT l → matchVal l = none → l = [] := by
  intro l hlt h
  cases l with
  | nil => rfl
  | cons c rest =>
    simp only [matchVal] at h
    split at h
    · rename_i hterm
      exact absurd (hlt c (by simp)) (by simp [hterm])
    · exact absurd h (goVal_ne_none rest (fun x hx => hlt x (by simp [hx])))

theorem goVal_append : ∀ (w t : List Char),
    (∀ c ∈ w, ¬ c = ';' ∧ lineTerm c = false) → goVal (w ++ t) = goVal t := by
  intro w
  induction w with
  | nil => intro t _; rfl
  | cons c w2 ih =>
    intro t hw
    have hc := hw c (by simp)
    rw [List.cons_append]
    simp only [goVal, hc.2, if_neg hc.1, Bool.false_eq_true, if_false]
    exact ih t (fun x hx => hw x (by simp [hx]))

/-! ## Redaction lemmas: prefix bookkeeping -/

theorem pfx_elim {k0 c : Char} {kt rest : List Char}
    (h : (k0 :: kt).isPrefixOf (c :: rest) = true) :
    c = k0 ∧ kt.isPrefixOf rest = true := by
  simp [List.isPrefixOf] at h ⊢
  exact ⟨h.1.symm, h.2⟩

theorem pfx_intro {k0 c : Char} {kt rest : List Char}
    (h1 : c = k0) (h2 : kt.isPrefixOf rest = true) :
    (k0 :: kt).isPrefixOf (c :: rest) = true := by
  simp [List.isPrefixOf, h1, h2]

theorem pfx_append : ∀ (p t : List Char), p.isPrefixOf (p ++ t) = true := by
  intro p
  induction p with
  | nil => intro t; simp [List.isPrefixOf]
  | cons a as ih => intro t; simp [List.isPrefixOf, ih]

theorem pfx_len : ∀ (p l : List Char), p.isPrefixOf l = true → p.length ≤ l.length := by
  intro p
  induction p with
  | nil => intro l _; simp
  | cons a as ih =>
    intro l h
    cases l with
    | nil => simp [List.isPrefixOf] at h
    | cons b bs =>
      have := ih bs (pfx_elim h).2
      simp only [List.length_cons]
      omega

theorem pfx_too_long : ∀ (p l : List Char), l.length < p.length → p.isPrefixOf l = false := by
  intro p l h
  cases hp : p.isPrefixOf l with
  | false => rfl
  | true => exact absurd (pfx_len p l hp) (by omega)

theorem pfx_drop_eq : ∀ (p l : List Char), p.isPrefixOf l = true →
    l = p ++ l.drop p.length := by
  intro p
  induction p with
  | nil => intro l _; simp
  | cons a as ih =>
    intro l h
    cases l with
    | nil => simp [List.isPrefixOf] at h
    | cons b bs =>
      obtain ⟨hb, hrest⟩ := pfx_elim h
      have := ih bs hrest
      simp only [List.length_cons, List.drop_succ_cons, List.cons_append]
      rw [hb, ← this]


/-! ## Redaction lemmas: scanner equations -/

theorem scanRep_nil (k0 : Char) (kt : List Char) : scanRep k0 kt [] = [] := by
  simp [scanRep]

theorem scanRep_walk (k0 : Char) (kt : List Char) (c : Char) (rest : List Char)
    (hp : (k0 :: kt).isPrefixOf (c :: rest) = false) :
    scanRep k0 kt (c :: rest) = c :: scanRep k0 kt rest := by
  rw [scanRep]
  simp [hp]

theorem scanRep_found (k0 : Char) (kt : List Char) (c : Char) (rest rest2 : List Char)
    (semi : Bool)
    (hp : (k0 :: kt).isPrefixOf (c :: rest) = true)
    (hm : matchVal (rest.drop kt.length) = some (semi, rest2)) :
    scanRep k0 kt (c :: rest) =
      k0 :: kt ++ '*' :: '*' :: '*' ::
        (if semi then ';' :: scanRep k0 kt rest2 else scanRep k0 kt rest2) := by
  rw [scanRep]
  simp only [hp, if_true, List.drop_succ_cons]
  split
  · rename_i semi2 rest3 heq
    rw [hm] at heq
    cases heq
    rfl
  · rename_i heq
    rw [hm] at heq
    cases heq

theorem scanRep_stuck (k0 : Char) (kt : List Char) (c : Char) (rest : List Char)
    (hp : (k0 :: kt).isPrefixOf (c :: rest) = true)
    (hm : matchVal (rest.drop kt.length) = none) :
    scanRep k0 kt (c :: rest) = c :: scanRep k0 kt rest := by
  rw [scanRep]
  simp only [hp, if_true, List.drop_succ_cons]
  split
  · rename_i semi2 rest3 heq
    rw [hm] at heq
    cases heq
  · rfl

theorem scanRep_short (k0 : Char) (kt : List Char) :
    ∀ l : List Char, l.length < kt.length + 1 → scanRep k0 kt l = l := by
  intro l
  induction l with
  | nil => intro _; exact scanRep_nil k0 kt
  | cons c rest ih =>
    intro h
    simp only [List.length_cons] at h
    rw [scanRep_walk k0 kt c rest
      (pfx_too_long _ _ (by simp only [List.length_cons]; omega))]
    rw [ih (by omega)]

theorem scanRep_walkthrough (k0 : Char) (kt : List Char) :
    ∀ (w t : List Char), (∀ c ∈ w, ¬ c = k0) →
      scanRep k0 kt (w ++ t) = w ++ scanRep k0 kt t := by
  intro w
  induction w with
  | nil => intro t _; simp
  | cons c w2 ih =>
    intro t hw
    have hc := hw c (by simp)
    have hp : (k0 :: kt).isPrefixOf (c :: (w2 ++ t)) = false := by
      cases hq : (k0 :: kt).isPrefixOf (c :: (w2 ++ t)) with
      | false => rfl
      | true => exact absurd (pfx_elim hq).1 hc
    rw [List.cons_append, scanRep_walk _ _ _ _ hp,
      ih t (fun x hx => hw x (by simp [hx]))]
    simp

theorem scanRep_id_of_not_contains (k0 : Char) (kt : List Char) :
    ∀ l : List Char, containsKey (k0 :: kt) l = false → scanRep k0 kt l = l := by
  intro l
  induction l with
  | nil => intro _; exact scanRep_nil k0 kt
  | cons c rest ih =>
    intro h
    simp only [containsKey, Bool.or_eq_false_iff] at h
    rw [scanRep_walk _ _ _ _ h.1, ih h.2]

theorem scanRep_noLT (k0 : Char) (kt : List Char) (hk : noLT (k0 :: kt))
    (l : List Char) (hl : noLT l) : noLT (scanRep k0 kt l) := by
  have hstar : lineTerm '*' = false := by decide
  have hsemi : lineTerm ';' = false := by decide
  have main : ∀ (n : Nat) (l : List Char), l.length ≤ n → noLT l →
      noLT (scanRep k0 kt l) := by
    intro n
    induction n with
    | zero =>
      intro l hlen hlt
      have : l = [] := List.length_eq_zero.mp (by omega)
      subst this
      rw [scanRep_nil]
      exact hlt
    | succ n ih =>
      intro l hlen hlt
      cases l with
      | nil => rw [scanRep_nil]; exact hlt
      | cons c rest =>
        simp only [List.length_cons] at hlen
        have hrest : noLT rest := fun y hy => hlt y (by simp [hy])
        cases hp : (k0 :: kt).isPrefixOf (c :: rest) with
        | false =>
          rw [scanRep_walk _ _ _ _ hp]
          intro x hx
          rcases List.mem_cons.mp hx with h | h
          · exact hlt x (by simp [h])
          · exact ih rest (by omega) hrest x h
        | true =>
          cases hm : matchVal (rest.drop kt.length) with
          | none =>
            rw [scanRep_stuck _ _ _ _ hp hm]
            intro x hx
            rcases List.mem_cons.mp hx with h | h
            · exact hlt x (by simp [h])
            · exact ih rest (by omega) hrest x h
          | some pr =>
            obtain ⟨semi, rest2⟩ := pr
            have hsfx := matchVal_suffix _ _ _ hm
            have hlen2 : rest2.length ≤ rest.length := by
              have h1 := hsfx.length_le
              have h2 : (rest.drop kt.length).length ≤ rest.length := by
                simp [List.length_drop]
              omega
            have hlt2 : noLT rest2 := by
              intro y hy
              exact hrest y (List.drop_subset kt.length rest (hsfx.subset hy))
            have hout := ih rest2 (by omega) hlt2
            rw [scanRep_found _ _ _ _ _ _ hp hm]
            intro x hx
            rcases List.mem_cons.mp hx with h | h
            · exact hk x (by simp [h])
            rcases List.mem_append.mp h with h | h
            · exact hk x (by simp [h])
            rcases List.mem_cons.mp h with h | h
            · rw [h]; exact hstar
            rcases List.mem_cons.mp h with h | h
            · rw [h]; exact hstar
            rcases List.mem_cons.mp h with h | h
            · rw [h]; exact hstar
            cases semi with
            | true =>
              rw [if_pos rfl] at h
              rcases List.mem_cons.mp h with h | h
              · rw [h]; exact hsemi
              · exact hout x h
            | false =>
              rw [if_neg (by simp)] at h
              exact hout x h
  exact main l.length l (by omega) hl


/-! ## Redaction lemmas: prefix reflection and normal forms -/

theorem scanRep_pfx_reflect (k0 : Char) (kt : List Char) :
    ∀ (l p : List Char), k0 ∉ p → p.isPrefixOf (scanRep k0 kt l) = true →
      p.isPrefixOf l = true := by
  intro l
  induction l with
  | nil =>
    intro p hk hp
    rw [scanRep_nil] at hp
    cases p with
    | nil => simp [List.isPrefixOf]
    | cons a as => simp [List.isPrefixOf] at hp
  | cons c rest ih =>
    intro p hk hp
    cases p with
    | nil => simp [List.isPrefixOf]
    | cons d p2 =>
      have hk2 : k0 ∉ p2 := fun hx => hk (by simp [hx])
      cases hpf : (k0 :: kt).isPrefixOf (c :: rest) with
      | true =>
        cases hm : matchVal (rest.drop kt.length) with
        | some pr =>
          obtain ⟨semi, rest2⟩ := pr
          rw [scanRep_found _ _ _ _ _ _ hpf hm] at hp
          have hd := (pfx_elim hp).1
          exact absurd (by simp [hd] : k0 ∈ d :: p2) hk
        | none =>
          rw [scanRep_stuck _ _ _ _ hpf hm] at hp
          obtain ⟨hd, hp2⟩ := pfx_elim hp
          exact pfx_intro hd (ih p2 hk2 hp2)
      | false =>
        rw [scanRep_walk _ _ _ _ hpf] at hp
        obtain ⟨hd, hp2⟩ := pfx_elim hp
        exact pfx_intro hd (ih p2 hk2 hp2)

theorem kn_nil (k0 : Char) (kt : List Char) : keyNormal k0 kt [] = true := by
  simp [keyNormal]

theorem kn_walk (k0 : Char) (kt : List Char) (c : Char) (rest : List Char)
    (hp : (k0 :: kt).isPrefixOf (c :: rest) = false) :
    keyNormal k0 kt (c :: rest) = keyNormal k0 kt rest := by
  rw [keyNormal]
  simp [hp]

theorem kn_end (k0 : Char) (kt : List Char) (c : Char) (rest : List Char)
    (hp : (k0 :: kt).isPrefixOf (c :: rest) = true)
    (hu : rest.drop kt.length = []) :
    keyNormal k0 kt (c :: rest) = true := by
  rw [keyNormal]
  simp [hp, hu]

theorem kn_mask (k0 : Char) (kt : List Char) (c : Char) (rest : List Char)
    (hp : (k0 :: kt).isPrefixOf (c :: rest) = true)
    (hu : rest.drop kt.length = ['*', '*', '*']) :
    keyNormal k0 kt (c :: rest) = true := by
  rw [keyNormal]
  simp [hp, hu]

theorem kn_semi (k0 : Char) (kt : List Char) (c : Char) (rest z : List Char)
    (hp : (k0 :: kt).isPrefixOf (c :: rest) = true)
    (hu : rest.drop kt.length = '*' :: '*' :: '*' :: ';' :: z) :
    keyNormal k0 kt (c :: rest) = keyNormal k0 kt z := by
  rw [keyNormal]
  simp only [hp, if_true, List.drop_succ_cons, hu]
  rw [if_neg (by simp), if_neg (by simp)]
  rw [if_pos (by
    have : '*' :: '*' :: '*' :: ';' :: z = ['*', '*', '*', ';'] ++ z := rfl
    rw [this]
    exact pfx_append _ _)]
  simp

theorem kn_shape (k0 : Char) (kt : List Char) (c : Char) (rest : List Char)
    (h : keyNormal k0 kt (c :: rest) = true)
    (hp : (k0 :: kt).isPrefixOf (c :: rest) = true) :
    rest.drop kt.length = [] ∨ rest.drop kt.length = ['*', '*', '*'] ∨
    ∃ z, rest.drop kt.length = '*' :: '*' :: '*' :: ';' :: z ∧
      keyNormal k0 kt z = true := by
  by_cases h1 : rest.drop kt.length = []
  · exact Or.inl h1
  by_cases h2 : rest.drop kt.length = ['*', '*', '*']
  · exact Or.inr (Or.inl h2)
  right; right
  rw [keyNormal] at h
  simp only [hp, if_true, List.drop_succ_cons] at h
  rw [if_neg h1, if_neg h2] at h
  by_cases h3 : (['*', '*', '*', ';']).isPrefixOf (rest.drop kt.length) = true
  · refine ⟨(rest.drop kt.length).drop 4, ?_, ?_⟩
    · have h4 := pfx_drop_eq _ _ h3
      simpa using h4
    · rw [if_pos h3] at h
      exact h
  · rw [if_neg (by simpa using h3)] at h
    exact absurd h (by simp)


theorem kn_walkthrough (k0 : Char) (kt : List Char) :
    ∀ (w t : List Char), (∀ c ∈ w, ¬ c = k0) →
      keyNormal k0 kt (w ++ t) = keyNormal k0 kt t := by
  intro w
  induction w with
  | nil => intro t _; rfl
  | cons c w2 ih =>
    intro t hw
    have hc := hw c (by simp)
    have hp : (k0 :: kt).isPrefixOf (c :: (w2 ++ t)) = false := by
      cases hq : (k0 :: kt).isPrefixOf (c :: (w2 ++ t)) with
      | false => rfl
      | true => exact absurd (pfx_elim hq).1 hc
    rw [List.cons_append, kn_walk _ _ _ _ hp, ih t (fun x hx => hw x (by simp [hx]))]

theorem kn_goVal (k0 : Char) (kt : List Char)
    (hkSemi : ∀ c ∈ (k0 :: kt), ¬ c = ';') (hkLT : noLT (k0 :: kt)) :
    ∀ (l : List Char) (b : Bool) (r : List Char),
      keyNormal k0 kt l = true → goVal l = some (b, r) → keyNormal k0 kt r = true := by
  intro l
  induction l with
  | nil =>
    intro b r h hg
    simp [goVal] at hg
    rcases hg with ⟨hb, hr⟩
    subst hr
    exact kn_nil k0 kt
  | cons c rest ih =>
    intro b r h hg
    cases hpf : (k0 :: kt).isPrefixOf (c :: rest) with
    | false =>
      rw [kn_walk _ _ _ _ hpf] at h
      simp only [goVal] at hg
      split at hg
      · simp at hg
        rcases hg with ⟨hb, hr⟩
        subst hr
        exact h
      · split at hg
        · simp at hg
        · exact ih b r h hg
    | true =>
      obtain ⟨hc, hkt⟩ := pfx_elim hpf
      have hrest := pfx_drop_eq kt rest hkt
      have hkey : goVal (c :: rest) = goVal (rest.drop kt.length) := by
        rw [hc]
        conv =>
          lhs
          rw [hrest]
        have e1 : k0 :: (kt ++ rest.drop kt.length)
            = (k0 :: kt) ++ rest.drop kt.length := rfl
        rw [e1]
        exact goVal_append (k0 :: kt) _ (fun x hx => ⟨hkSemi x hx, hkLT x hx⟩)
      rw [hkey] at hg
      rcases kn_shape k0 kt c rest h hpf with hu | hu | ⟨z, hu, hz⟩
      · rw [hu] at hg
        simp [goVal] at hg
        rcases hg with ⟨hb, hr⟩
        subst hr
        exact kn_nil k0 kt
      · rw [hu] at hg
        have hmask : goVal ['*', '*', '*'] = some (false, []) := by decide
        rw [hmask] at hg
        cases hg
        exact kn_nil k0 kt
      · rw [hu] at hg
        simp [goVal, lineTerm] at hg
        rcases hg with ⟨hb, hr⟩
        subst hr
        exact hz

theorem kn_matchVal (k0 : Char) (kt : List Char)
    (hkSemi : ∀ c ∈ (k0 :: kt), ¬ c = ';') (hkLT : noLT (k0 :: kt)) :
    ∀ (l : List Char) (b : Bool) (r : List Char),
      keyNormal k0 kt l = true → matchVal l = some (b, r) → keyNormal k0 kt r = true := by
  intro l b r h hm
  cases l with
  | nil => simp [matchVal] at hm
  | cons c rest =>
    simp only [matchVal] at hm
    split at hm
    · simp at hm
    · cases hpf : (k0 :: kt).isPrefixOf (c :: rest) with
      | false =>
        rw [kn_walk _ _ _ _ hpf] at h
        exact kn_goVal k0 kt hkSemi hkLT rest b r h hm
      | true =>
        obtain ⟨hc, hkt⟩ := pfx_elim hpf
        have hrest := pfx_drop_eq kt rest hkt
        have hkey : goVal rest = goVal (rest.drop kt.length) := by
          conv =>
            lhs
            rw [hrest]
          exact goVal_append kt _
            (fun x hx => ⟨hkSemi x (by simp [hx]), hkLT x (by simp [hx])⟩)
        rw [hkey] at hm
        rcases kn_shape k0 kt c rest h hpf with hu | hu | ⟨z, hu, hz⟩
        · rw [hu] at hm
          simp [goVal] at hm
          rcases hm with ⟨hb, hr⟩
          subst hr
          exact kn_nil k0 kt
        · rw [hu] at hm
          have hmask : goVal ['*', '*', '*'] = some (false, []) := by decide
          rw [hmask] at hm
          cases hm
          exact kn_nil k0 kt
        · rw [hu] at hm
          simp [goVal, lineTerm] at hm
          rcases hm with ⟨hb, hr⟩
          subst hr
          exact hz


theorem pfx_self (p : List Char) : p.isPrefixOf p = true := by
  have h := pfx_append p []
  simpa using h

theorem kn_fixed (k0 : Char) (kt : List Char) :
    ∀ l : List Char, keyNormal k0 kt l = true → scanRep k0 kt l = l := by
  have main : ∀ (n : Nat) (l : List Char), l.length ≤ n →
      keyNormal k0 kt l = true → scanRep k0 kt l = l := by
    intro n
    induction n with
    | zero =>
      intro l hlen _
      have : l = [] := List.length_eq_zero.mp (by omega)
      subst this
      exact scanRep_nil k0 kt
    | succ n ih =>
      intro l hlen h
      cases l with
      | nil => exact scanRep_nil k0 kt
      | cons c rest =>
        simp only [List.length_cons] at hlen
        cases hpf : (k0 :: kt).isPrefixOf (c :: rest) with
        | false =>
          rw [kn_walk _ _ _ _ hpf] at h
          rw [scanRep_walk _ _ _ _ hpf, ih rest (by omega) h]
        | true =>
          obtain ⟨hc, hkt⟩ := pfx_elim hpf
          have hrest := pfx_drop_eq kt rest hkt
          rcases kn_shape k0 kt c rest h hpf with hu | hu | ⟨z, hu, hz⟩
          · have hrkt : rest = kt := by
              rw [hu, List.append_nil] at hrest
              exact hrest
            have hm : matchVal (rest.drop kt.length) = none := by
              rw [hu]
              simp [matchVal]
            rw [scanRep_stuck _ _ _ _ hpf hm]
            rw [hrkt, scanRep_short k0 kt kt (by omega)]
          · have hm : matchVal (rest.drop kt.length) = some (false, []) := by
              rw [hu]
              decide
            rw [scanRep_found _ _ _ _ _ _ hpf hm]
            rw [if_neg (by simp), scanRep_nil]
            rw [hc, hrest, hu]
            simp
          · have hm : matchVal (rest.drop kt.length) = some (true, z) := by
              rw [hu]
              simp [matchVal, goVal, lineTerm]
            rw [scanRep_found _ _ _ _ _ _ hpf hm]
            rw [if_pos rfl]
            have hzlen : z.length ≤ n := by
              have hrl : rest.length = kt.length + (z.length + 4) := by
                conv =>
                  lhs
                  rw [hrest, hu]
                simp only [List.length_append, List.length_cons]
              omega
            rw [ih z hzlen hz]
            rw [hc, hrest, hu]
            simp
  intro l h
  exact main l.length l (by omega) h

theorem kn_output (k0 : Char) (kt : List Char) (hk0 : k0 ∉ kt) :
    ∀ l : List Char, noLT l → keyNormal k0 kt (scanRep k0 kt l) = true := by
  have main : ∀ (n : Nat) (l : List Char), l.length ≤ n → noLT l →
      keyNormal k0 kt (scanRep k0 kt l) = true := by
    intro n
    induction n with
    | zero =>
      intro l hlen _
      have : l = [] := List.length_eq_zero.mp (by omega)
      subst this
      rw [scanRep_nil]
      exact kn_nil k0 kt
    | succ n ih =>
      intro l hlen hlt
      cases l with
      | nil =>
        rw [scanRep_nil]
        exact kn_nil k0 kt
      | cons c rest =>
        simp only [List.length_cons] at hlen
        have hrestLT : noLT rest := fun y hy => hlt y (by simp [hy])
        cases hpf : (k0 :: kt).isPrefixOf (c :: rest) with
        | false =>
          rw [scanRep_walk _ _ _ _ hpf]
          have hq : (k0 :: kt).isPrefixOf (c :: scanRep k0 kt rest) = false := by
            cases hq2 : (k0 :: kt).isPrefixOf (c :: scanRep k0 kt rest) with
            | false => rfl
            | true =>
              obtain ⟨hc, hkts⟩ := pfx_elim hq2
              have hr := scanRep_pfx_reflect k0 kt rest kt hk0 hkts
              exact absurd (pfx_intro hc hr) (by simp [hpf])
          rw [kn_walk _ _ _ _ hq]
          exact ih rest (by omega) hrestLT
        | true =>
          cases hm : matchVal (rest.drop kt.length) with
          | none =>
            have hdropLT : noLT (rest.drop kt.length) := fun y hy =>
              hrestLT y (List.drop_subset _ _ hy)
            have hdrop := matchVal_none_nil _ hdropLT hm
            obtain ⟨hc, hkt⟩ := pfx_elim hpf
            have hrest := pfx_drop_eq kt rest hkt
            rw [hdrop, List.append_nil] at hrest
            rw [scanRep_stuck _ _ _ _ hpf hm, hrest,
              scanRep_short k0 kt kt (by omega), hc]
            exact kn_end k0 kt k0 kt (pfx_intro rfl (pfx_self kt)) (List.drop_length kt)
          | some pr =>
            obtain ⟨semi, rest2⟩ := pr
            have hsfx := matchVal_suffix _ _ _ hm
            have hlen2 : rest2.length ≤ n := by
              have h1 := hsfx.length_le
              have h2 : (rest.drop kt.length).length ≤ rest.length := by
                simp [List.length_drop]
              omega
            have hlt2 : noLT rest2 := fun y hy =>
              hrestLT y (List.drop_subset _ _ (hsfx.subset hy))
            have hR := ih rest2 hlen2 hlt2
            rw [scanRep_found _ _ _ _ _ _ hpf hm]
            cases semi with
            | false =>
              have hrest2 := matchVal_semi_end _ _ hm
              subst hrest2
              rw [if_neg (by simp), scanRep_nil]
              exact kn_mask k0 kt k0 (kt ++ ['*', '*', '*'])
                (pfx_intro rfl (pfx_append kt _)) (List.drop_left kt _)
            | true =>
              rw [if_pos rfl]
              show keyNormal k0 kt
                (k0 :: (kt ++ '*' :: '*' :: '*' :: ';' :: scanRep k0 kt rest2)) = true
              rw [kn_semi k0 kt k0 (kt ++ '*' :: '*' :: '*' :: ';' :: scanRep k0 kt rest2)
                (scanRep k0 kt rest2) (pfx_intro rfl (pfx_append kt _))
                (List.drop_left kt _)]
              exact hR
  intro l h
  exact main l.length l (by omega) h


theorem scanRep_id_all_ne (k0 : Char) (kt : List Char) (w : List Char)
    (hw : ∀ c ∈ w, ¬ c = k0) : scanRep k0 kt w = w := by
  have h := scanRep_walkthrough k0 kt w [] hw
  simpa [scanRep_nil] using h

theorem kn_cross (a0 : Char) (akt : List Char) (b0 : Char) (bkt : List Char)
    (haSemi : ∀ c ∈ (a0 :: akt), ¬ c = ';')
    (haLT : noLT (a0 :: akt))
    (hba : ∀ c ∈ (b0 :: bkt), ¬ c = a0)
    (hstar_a : ¬ ('*' : Char) = a0) (hsemi_a : ¬ (';' : Char) = a0)
    (hb_akt : b0 ∉ akt) (hstar_b : ¬ ('*' : Char) = b0)
    (hsemi_b : ¬ (';' : Char) = b0) :
    ∀ A : List Char, noLT A → keyNormal a0 akt A = true →
      keyNormal a0 akt (scanRep b0 bkt A) = true := by
  have hwAkt : ∀ c ∈ akt, ¬ c = b0 := fun x hx he => hb_akt (he ▸ hx)
  have hwMask3 : ∀ c ∈ ['*', '*', '*'], ¬ c = b0 := by
    intro x hx
    simp at hx
    rw [hx]
    exact hstar_b
  have hwMask4 : ∀ c ∈ ['*', '*', '*', ';'], ¬ c = b0 := by
    intro x hx
    simp at hx
    rcases hx with hx | hx
    · rw [hx]; exact hstar_b
    · rw [hx]; exact hsemi_b
  have hwMask4a : ∀ c ∈ ['*', '*', '*', ';'], ¬ c = a0 := by
    intro x hx
    simp at hx
    rcases hx with hx | hx
    · rw [hx]; exact hstar_a
    · rw [hx]; exact hsemi_a
  have hwMask3a : ∀ c ∈ ['*', '*', '*'], ¬ c = a0 := by
    intro x hx
    simp at hx
    rw [hx]
    exact hstar_a
  have main : ∀ (n : Nat) (A : List Char), A.length ≤ n → noLT A →
      keyNormal a0 akt A = true → keyNormal a0 akt (scanRep b0 bkt A) = true := by
    intro n
    induction n with
    | zero =>
      intro A hlen _ _
      have : A = [] := List.length_eq_zero.mp (by omega)
      subst this
      rw [scanRep_nil]
      exact kn_nil a0 akt
    | succ n ih =>
      intro A hlen hlt hA
      cases A with
      | nil =>
        rw [scanRep_nil]
        exact kn_nil a0 akt
      | cons c rest =>
        simp only [List.length_cons] at hlen
        have hrestLT : noLT rest := fun y hy => hlt y (by simp [hy])
        cases hbpf : (b0 :: bkt).isPrefixOf (c :: rest) with
        | true =>
          obtain ⟨hcb, hbkt⟩ := pfx_elim hbpf
          have hrest := pfx_drop_eq bkt rest hbkt
          have hcna : ¬ c = a0 := by
            rw [hcb]
            exact hba b0 (by simp)
          have hA2 : keyNormal a0 akt (rest.drop bkt.length) = true := by
            have e1 : c :: rest = (b0 :: bkt) ++ rest.drop bkt.length := by
              rw [hcb]
              conv =>
                lhs
                rw [hrest]
              rfl
            rw [e1, kn_walkthrough a0 akt (b0 :: bkt) _ hba] at hA
            exact hA
          cases hm : matchVal (rest.drop bkt.length) with
          | none =>
            rw [scanRep_stuck _ _ _ _ hbpf hm]
            have hwa : (a0 :: akt).isPrefixOf (c :: scanRep b0 bkt rest) = false := by
              cases hq : (a0 :: akt).isPrefixOf (c :: scanRep b0 bkt rest) with
              | false => rfl
              | true => exact absurd (pfx_elim hq).1 hcna
            rw [kn_walk _ _ _ _ hwa]
            have hArest : keyNormal a0 akt rest = true := by
              have e2 : keyNormal a0 akt rest
                  = keyNormal a0 akt (rest.drop bkt.length) := by
                conv =>
                  lhs
                  rw [hrest]
                exact kn_walkthrough a0 akt bkt _ (fun x hx => hba x (by simp [hx]))
              rw [e2]
              exact hA2
            exact ih rest (by omega) hrestLT hArest
          | some pr =>
            obtain ⟨semi, rest2⟩ := pr
            have hA3 : keyNormal a0 akt rest2 = true :=
              kn_matchVal a0 akt haSemi haLT _ _ _ hA2 hm
            have hsfx := matchVal_suffix _ _ _ hm
            have hlen2 : rest2.length ≤ n := by
              have h1 := hsfx.length_le
              have h2 : (rest.drop bkt.length).length ≤ rest.length := by
                simp [List.length_drop]
              omega
            have hlt2 : noLT rest2 := fun y hy =>
              hrestLT y (List.drop_subset _ _ (hsfx.subset hy))
            have hR := ih rest2 hlen2 hlt2 hA3
            rw [scanRep_found _ _ _ _ _ _ hbpf hm]
            cases semi with
            | false =>
              have hrest2 := matchVal_semi_end _ _ hm
              subst hrest2
              rw [if_neg (by simp), scanRep_nil]
              rw [kn_walkthrough a0 akt (b0 :: bkt) _ hba]
              show keyNormal a0 akt (['*', '*', '*'] ++ []) = true
              rw [kn_walkthrough a0 akt ['*', '*', '*'] [] hwMask3a]
              exact kn_nil a0 akt
            | true =>
              rw [if_pos rfl]
              rw [kn_walkthrough a0 akt (b0 :: bkt) _ hba]
              show keyNormal a0 akt
                (['*', '*', '*', ';'] ++ scanRep b0 bkt rest2) = true
              rw [kn_walkthrough a0 akt ['*', '*', '*', ';'] _ hwMask4a]
              exact hR
        | false =>
          rw [scanRep_walk _ _ _ _ hbpf]
          cases hapf : (a0 :: akt).isPrefixOf (c :: rest) with
          | true =>
            obtain ⟨hca, hakt⟩ := pfx_elim hapf
            have hresta := pfx_drop_eq akt rest hakt
            rcases kn_shape a0 akt c rest hA hapf with hu | hu | ⟨z, hu, hz⟩
            · have hrkt : rest = akt := by
                rw [hu, List.append_nil] at hresta
                exact hresta
              have hscan : scanRep b0 bkt rest = rest := by
                rw [hrkt]
                exact scanRep_id_all_ne b0 bkt akt hwAkt
              rw [hscan]
              exact hA
            · have hscan : scanRep b0 bkt rest = rest := by
                conv =>
                  lhs
                  rw [hresta, hu]
                rw [scanRep_walkthrough b0 bkt akt _ hwAkt,
                  scanRep_id_all_ne b0 bkt ['*', '*', '*'] hwMask3]
                rw [hresta, hu]
              rw [hscan]
              exact hA
            · have hzlen : z.length ≤ n := by
                have hrl : rest.length = akt.length + (z.length + 4) := by
                  conv =>
                    lhs
                    rw [hresta, hu]
                  simp only [List.length_append, List.length_cons]
                omega
              have hzLT : noLT z := by
                intro y hy
                apply hrestLT y
                rw [hresta, hu]
                simp [hy]
              have hRz := ih z hzlen hzLT hz
              have hscan : scanRep b0 bkt rest
                  = akt ++ ('*' :: '*' :: '*' :: ';' :: scanRep b0 bkt z) := by
                conv =>
                  lhs
                  rw [hresta, hu]
                rw [scanRep_walkthrough b0 bkt akt _ hwAkt]
                congr 1
                show scanRep b0 bkt (['*', '*', '*', ';'] ++ z)
                    = ['*', '*', '*', ';'] ++ scanRep b0 bkt z
                exact scanRep_walkthrough b0 bkt ['*', '*', '*', ';'] z hwMask4
              rw [hscan, hca]
              rw [kn_semi a0 akt a0 (akt ++ ('*' :: '*' :: '*' :: ';' :: scanRep b0 bkt z))
                (scanRep b0 bkt z) (pfx_intro rfl (pfx_append akt _))
                (List.drop_left akt _)]
              exact hRz
          | false =>
            have hArest : keyNormal a0 akt rest = true := by
              rw [kn_walk _ _ _ _ hapf] at hA
              exact hA
            have hwa : (a0 :: akt).isPrefixOf (c :: scanRep b0 bkt rest) = false := by
              cases hq : (a0 :: akt).isPrefixOf (c :: scanRep b0 bkt rest) with
              | false => rfl
              | true =>
                obtain ⟨hc2, hs2⟩ := pfx_elim hq
                have hr := scanRep_pfx_reflect b0 bkt rest akt hb_akt hs2
                exact absurd (pfx_intro hc2 hr) (by simp [hapf])
            rw [kn_walk _ _ _ _ hwa]
            exact ih rest (by omega) hrestLT hArest
  intro A h1 h2
  exact main A.length A (by omega) h1 h2


theorem scanRep_subst (k0 : Char) (kt : List Char) (v t : List Char)
    (hv : v ≠ []) (hvSemi : ';' ∉ v) (hvLT : noLT v) :
    scanRep k0 kt ((k0 :: kt) ++ (v ++ ';' :: t))
      = (k0 :: kt) ++ '*' :: '*' :: '*' :: ';' :: scanRep k0 kt t := by
  cases v with
  | nil => exact absurd rfl hv
  | cons c v2 =>
    show scanRep k0 kt (k0 :: (kt ++ ((c :: v2) ++ ';' :: t))) = _
    have hpf : (k0 :: kt).isPrefixOf (k0 :: (kt ++ ((c :: v2) ++ ';' :: t))) = true :=
      pfx_intro rfl (pfx_append kt _)
    have hm : matchVal ((kt ++ ((c :: v2) ++ ';' :: t)).drop kt.length)
        = some (true, t) := by
      rw [List.drop_left]
      show matchVal (c :: (v2 ++ ';' :: t)) = some (true, t)
      simp only [matchVal]
      rw [hvLT c (by simp)]
      simp only [Bool.false_eq_true, if_false]
      rw [goVal_append v2 (';' :: t)
        (fun x hx => ⟨fun he => hvSemi (he ▸ List.mem_cons_of_mem c hx),
          hvLT x (List.mem_cons_of_mem c hx)⟩)]
      simp [goVal]
    rw [scanRep_found k0 kt k0 (kt ++ ((c :: v2) ++ ';' :: t)) t true hpf hm, if_pos rfl]

theorem scanRep_subst_end (k0 : Char) (kt : List Char) (v : List Char)
    (hv : v ≠ []) (hvSemi : ';' ∉ v) (hvLT : noLT v) :
    scanRep k0 kt ((k0 :: kt) ++ v) = (k0 :: kt) ++ ['*', '*', '*'] := by
  cases v with
  | nil => exact absurd rfl hv
  | cons c v2 =>
    show scanRep k0 kt (k0 :: (kt ++ (c :: v2))) = _
    have hpf : (k0 :: kt).isPrefixOf (k0 :: (kt ++ (c :: v2))) = true :=
      pfx_intro rfl (pfx_append kt _)
    have hm : matchVal ((kt ++ (c :: v2)).drop kt.length) = some (false, []) := by
      rw [List.drop_left]
      show matchVal (c :: v2) = some (false, [])
      simp only [matchVal]
      rw [hvLT c (by simp)]
      simp only [Bool.false_eq_true, if_false]
      have h2 : goVal (v2 ++ []) = goVal [] :=
        goVal_append v2 []
          (fun x hx => ⟨fun he => hvSemi (he ▸ List.mem_cons_of_mem c hx),
            hvLT x (List.mem_cons_of_mem c hx)⟩)
      simpa [goVal] using h2
    rw [scanRep_found k0 kt k0 (kt ++ (c :: v2)) [] false hpf hm, if_neg (by simp),
      scanRep_nil]

theorem scanRep_transport (k0 : Char) (kt : List Char) :
    ∀ (w t : List Char),
      (∀ p, p < w.length → (k0 :: kt).isPrefixOf ((w ++ t).drop p) = false) →
      scanRep k0 kt (w ++ t) = w ++ scanRep k0 kt t := by
  intro w
  induction w with
  | nil => intro t _; simp
  | cons c w2 ih =>
    intro t hw
    have h0 : (k0 :: kt).isPrefixOf (c :: (w2 ++ t)) = false := by
      have h1 := hw 0 (by simp)
      simpa using h1
    have hshift : ∀ p, p < w2.length →
        (k0 :: kt).isPrefixOf ((w2 ++ t).drop p) = false := by
      intro p hp
      have h1 := hw (p + 1) (by simp only [List.length_cons]; omega)
      rw [List.cons_append, List.drop_succ_cons] at h1
      exact h1
    rw [List.cons_append, scanRep_walk _ _ _ _ h0, ih t hshift]
    simp

theorem redactCookie_idem (s : List Char) (h : noLT s) :
    redactCookie (redactCookie s) = redactCookie s := by
  simp only [redactCookie, replaceSid, replaceRm]
  have hsid_norm : keyNormal 's' ['i', 'd', '=']
      (scanRep 's' ['i', 'd', '='] s) = true :=
    kn_output 's' ['i', 'd', '='] (by decide) s h
  have hLT1 : noLT (scanRep 's' ['i', 'd', '='] s) :=
    scanRep_noLT 's' ['i', 'd', '='] (by unfold noLT; decide) s h
  have hcross : keyNormal 's' ['i', 'd', '=']
      (scanRep 'r' ['m', '='] (scanRep 's' ['i', 'd', '='] s)) = true :=
    kn_cross 's' ['i', 'd', '='] 'r' ['m', '=']
      (by decide) (by unfold noLT; decide) (by decide) (by decide) (by decide)
      (by decide) (by decide) (by decide) _ hLT1 hsid_norm
  have hfix : scanRep 's' ['i', 'd', '=']
      (scanRep 'r' ['m', '='] (scanRep 's' ['i', 'd', '='] s))
      = scanRep 'r' ['m', '='] (scanRep 's' ['i', 'd', '='] s) :=
    kn_fixed _ _ _ hcross
  have hrm_norm : keyNormal 'r' ['m', '=']
      (scanRep 'r' ['m', '='] (scanRep 's' ['i', 'd', '='] s)) = true :=
    kn_output 'r' ['m', '='] (by decide) _ hLT1
  have hrm_fix : scanRep 'r' ['m', '=']
      (scanRep 'r' ['m', '='] (scanRep 's' ['i', 'd', '='] s))
      = scanRep 'r' ['m', '='] (scanRep 's' ['i', 'd', '='] s) :=
    kn_fixed _ _ _ hrm_norm
  rw [hfix, hrm_fix]

/-- C8 counterexample: the cookie string sid=abc; usid=hello contains the
pair sid=abc; whose value must be masked; but the redactor also rewrites
the distinct cookie pair usid=hello (because the regex has no boundary
anchor, sid= matches inside the usid name), so it does not preserve every
other cookie pair verbatim. -/
theorem C8_counterexample :
    redactCookie
        ['s', 'i', 'd', '=', 'a', 'b', 'c', ';', ' ', 'u', 's', 'i', 'd', '=',
         'h', 'e', 'l', 'l', 'o']
      = ['s', 'i', 'd', '=', '*', '*', '*', ';', ' ', 'u', 's', 'i', 'd', '=',
         '*', '*', '*'] ∧
    redactCookie
        ['s', 'i', 'd', '=', 'a', 'b', 'c', ';', ' ', 'u', 's', 'i', 'd', '=',
         'h', 'e', 'l', 'l', 'o']
      ≠ ['s', 'i', 'd', '=', '*', '*', '*', ';', ' ', 'u', 's', 'i', 'd', '=',
         'h', 'e', 'l', 'l', 'o'] := by
  have h1 : redactCookie
      ['s', 'i', 'd', '=', 'a', 'b', 'c', ';', ' ', 'u', 's', 'i', 'd', '=',
       'h', 'e', 'l', 'l', 'o']
      = ['s', 'i', 'd', '=', '*', '*', '*', ';', ' ', 'u', 's', 'i', 'd', '=',
         '*', '*', '*'] := by
    simp [redactCookie, replaceSid, replaceRm, scanRep, matchVal, goVal, lineTerm,
      List.isPrefixOf]
  refine ⟨h1, ?_⟩
  rw [h1]
  decide

/-- C8 (amended): each replacement pass of the header redactor scans its
key (sid= or rm=) left to right, one leftmost occurrence at a time,
resuming after the replaced segment.  Any segment in which no occurrence
of the key starts is preserved verbatim, and scanning continues
independently after it; at an occurrence the scan arrives at (including
occurrences inside longer cookie names such as usid), exactly the value
segment that follows is replaced by the fixed mask, terminating at the
next semicolon (which is kept) or at the end of the string (nothing
appended) -- the replaced value may itself cover later key text, which is
how overlapping occurrences are consumed.  Cookie strings containing
neither key as a substring pass through verbatim, and on cookie strings
(which carry no line terminators) applying the redactor twice yields the
same result as applying it once. -/
theorem C8_redact_amended :
    (∀ s : List Char, noLT s → redactCookie (redactCookie s) = redactCookie s)
  ∧ (∀ w v t : List Char,
      (∀ p, p < w.length →
        (['s', 'i', 'd', '=']).isPrefixOf
          ((w ++ (['s', 'i', 'd', '='] ++ (v ++ ';' :: t))).drop p) = false) →
      v ≠ [] → ';' ∉ v → noLT v →
      replaceSid (w ++ (['s', 'i', 'd', '='] ++ (v ++ ';' :: t)))
        = w ++ (['s', 'i', 'd', '=', '*', '*', '*', ';'] ++ replaceSid t))
  ∧ (∀ w v t : List Char,
      (∀ p, p < w.length →
        (['r', 'm', '=']).isPrefixOf
          ((w ++ (['r', 'm', '='] ++ (v ++ ';' :: t))).drop p) = false) →
      v ≠ [] → ';' ∉ v → noLT v →
      replaceRm (w ++ (['r', 'm', '='] ++ (v ++ ';' :: t)))
        = w ++ (['r', 'm', '=', '*', '*', '*', ';'] ++ replaceRm t))
  ∧ (∀ w v : List Char,
      (∀ p, p < w.length →
        (['s', 'i', 'd', '=']).isPrefixOf
          ((w ++ (['s', 'i', 'd', '='] ++ v)).drop p) = false) →
      v ≠ [] → ';' ∉ v → noLT v →
      replaceSid (w ++ (['s', 'i', 'd', '='] ++ v))
        = w ++ ['s', 'i', 'd', '=', '*', '*', '*'])
  ∧ (∀ w v : List Char,
      (∀ p, p < w.length →
        (['r', 'm', '=']).isPrefixOf
          ((w ++ (['r', 'm', '='] ++ v)).drop p) = false) →
      v ≠ [] → ';' ∉ v → noLT v →
      replaceRm (w ++ (['r', 'm', '='] ++ v))
        = w ++ ['r', 'm', '=', '*', '*', '*'])
  ∧ (∀ s : List Char, containsKey ['s', 'i', 'd', '='] s = false → replaceSid s = s)
  ∧ (∀ s : List Char, containsKey ['r', 'm', '='] s = false → replaceRm s = s) := by
  refine ⟨redactCookie_idem, ?_, ?_, ?_, ?_, ?_, ?_⟩
  · intro w v t hw hv hvSemi hvLT
    simp only [replaceSid]
    rw [scanRep_transport 's' ['i', 'd', '='] w
      (['s', 'i', 'd', '='] ++ (v ++ ';' :: t)) hw]
    congr 1
    exact scanRep_subst 's' ['i', 'd', '='] v t hv hvSemi hvLT
  · intro w v t hw hv hvSemi hvLT
    simp only [replaceRm]
    rw [scanRep_transport 'r' ['m', '='] w
      (['r', 'm', '='] ++ (v ++ ';' :: t)) hw]
    congr 1
    exact scanRep_subst 'r' ['m', '='] v t hv hvSemi hvLT
  · intro w v hw hv hvSemi hvLT
    simp only [replaceSid]
    rw [scanRep_transport 's' ['i', 'd', '='] w (['s', 'i', 'd', '='] ++ v) hw]
    congr 1
    exact scanRep_subst_end 's' ['i', 'd', '='] v hv hvSemi hvLT
  · intro w v hw hv hvSemi hvLT
    simp only [replaceRm]
    rw [scanRep_transport 'r' ['m', '='] w (['r', 'm', '='] ++ v) hw]
    congr 1
    exact scanRep_subst_end 'r' ['m', '='] v hv hvSemi hvLT
  · intro s hs
    exact scanRep_id_of_not_contains 's' ['i', 'd', '='] s hs
  · intro s hs
    exact scanRep_id_of_not_contains 'r' ['m', '='] s hs

theorem C8_witness :
    (redactCookie (redactCookie ['s', 'i', 'd', '=', 'a', ';', 'r', 'm', '=', 'b'])
      = redactCookie ['s', 'i', 'd', '=', 'a', ';', 'r', 'm', '=', 'b']) ∧
    (replaceSid
        (['a', '=', 'b', ';', ' '] ++
          (['s', 'i', 'd', '='] ++ (['x'] ++ ';' :: ['c', '=', 'd'])))
      = ['a', '=', 'b', ';', ' '] ++
          (['s', 'i', 'd', '=', '*', '*', '*', ';'] ++ replaceSid ['c', '=', 'd'])) ∧
    (replaceRm (['u', ';'] ++ (['r', 'm', '='] ++ ['y', 'z']))
      = ['u', ';'] ++ ['r', 'm', '=', '*', '*', '*']) :=
  ⟨C8_redact_amended.1 _ (by unfold noLT; decide),
   C8_redact_amended.2.1 ['a', '=', 'b', ';', ' '] ['x'] ['c', '=', 'd']
     (by decide) (by decide) (by decide) (by unfold noLT; decide),
   C8_redact_amended.2.2.2.2.1 ['u', ';'] ['y', 'z']
     (by decide) (by decide) (by decide) (by unfold noLT; decide)⟩

end NodeLogger
